import Mathlib

/-!
Formal model of the matching core of `src/app2.py` (bank-reconciliation app).

Modelling conventions:
* Python strings are `List Char`; pandas missing values (`NaN`) are `Option`.
* Python floats (amounts, similarity ratios) are `ℚ`; `round` on floats is
  round-half-to-even, modelled by `pyRound`.
* Calendar dates are day numbers in `ℤ`; `(d1 - d2).days` is `d1 - d2`.
* A Python `ZeroDivisionError` inside `reconcile` is modelled by the whole
  computation returning `none`.
* `str.lower`, `str.strip` and `str.split` are modelled on the ASCII fragment
  (letters `A`–`Z` for lowercasing; whitespace = space, tab, LF, VT, FF, CR),
  which covers every character class the program's token set manipulates.
* `difflib.SequenceMatcher(None, a, b).ratio()` is modelled by `similarity`:
  the recursive longest-matching-block count divided by the total length,
  with the `1.0` result on two empty strings.  The `autojunk` heuristic
  (active only for strings of length ≥ 200) is not modelled.
-/

/-- Python whitespace test (ASCII fragment): space, tab, LF, VT, FF, CR. -/
def isSpaceB (c : Char) : Bool :=
  decide (c.toNat = 32 ∨ (9 ≤ c.toNat ∧ c.toNat ≤ 13))

/-- The space character: replacement text of `str.replace(ch, ' ')` and the
separator of `' '.join(...)`. -/
def spChar : Char := Char.ofNat 32

/-- Python `str.lower` on one character (ASCII fragment). -/
def pyLower (c : Char) : Char :=
  if h : 65 ≤ c.toNat ∧ c.toNat ≤ 90 then
    Char.ofNatAux (c.toNat + 32) (Or.inl (by omega))
  else c

/-- Python `str.lower` (ASCII fragment). -/
def lowerStr (s : List Char) : List Char := s.map pyLower

/-- Python `str.strip()`: drop leading and trailing whitespace. -/
def pyStrip (s : List Char) : List Char :=
  ((s.dropWhile isSpaceB).reverse.dropWhile isSpaceB).reverse

/-- Python `str.replace(p, r)`: left-to-right, non-overlapping replacement of
the pattern `p` by `r`.  The fuel argument makes the recursion structural; one
character of `s` is consumed per step, so `fuel = s.length` always suffices
(the `0, s` fallback is then unreachable for nonempty `s`). -/
def replGen (p r : List Char) : Nat → List Char → List Char
  | _, [] => []
  | 0, s => s
  | fuel+1, c :: rest =>
    if p <+: (c :: rest) then r ++ replGen p r fuel (rest.drop (p.length - 1))
    else c :: replGen p r fuel rest

/-- `s.replace(p, ' ')` — what line 13 of `app2.py` actually does. -/
def pyReplace (p s : List Char) : List Char := replGen p [spChar] s.length s

/-- `s.replace(p, '')` — removal of the pattern, used to formalise the claim
wording "stop tokens removed". -/
def pyRemove (p s : List Char) : List Char := replGen p [] s.length s

/-- The stop-token list of `normalize_text`, in source order:
`['.', ',', '&', 'ltd', 'pvt', 'online', 'india']`. -/
def stopTokens : List (List Char) :=
  [['.'], [','], ['&'], "ltd".toList, "pvt".toList, "online".toList, "india".toList]

/-- Python `str.split()` (no separator): split on whitespace runs, dropping
empty pieces.  Fuel-based structural recursion; `fuel = s.length` suffices. -/
def pySplitF : Nat → List Char → List (List Char)
  | _, [] => []
  | 0, _ :: _ => []
  | fuel+1, c :: rest =>
    if isSpaceB c then pySplitF fuel rest
    else (c :: rest.takeWhile (fun d => !isSpaceB d)) ::
      pySplitF fuel (rest.dropWhile (fun d => !isSpaceB d))

/-- Python `s.split()`. -/
def pySplit (s : List Char) : List (List Char) := pySplitF s.length s

/-- Python `' '.join(ws)`. -/
def joinSpace : List (List Char) → List Char
  | [] => []
  | [w] => w
  | w :: x :: ws => w ++ spChar :: joinSpace (x :: ws)

/-- `normalize_text` from `src/app2.py` lines 8-15: missing value to `''`,
otherwise lowercase, strip, replace each stop token by a space (in order),
then collapse whitespace via `' '.join(s.split())`. -/
def normalize_text : Option (List Char) → List Char
  | none => []
  | some s =>
    joinSpace (pySplit
      (stopTokens.foldl (fun acc p => pyReplace p acc) (pyStrip (lowerStr s))))

/-- The transformation claim C7 describes: identical to `normalize_text`
except that the stop tokens are REMOVED (naive substring removal) rather than
replaced by a space.  Used to compare the claim's wording with the source. -/
def normalize_text_claimed : Option (List Char) → List Char
  | none => []
  | some s =>
    joinSpace (pySplit
      (stopTokens.foldl (fun acc p => pyRemove p acc) (pyStrip (lowerStr s))))

/-- The amended description of `normalize_text`: lowercase, trim, each stop
token replaced by a single space (naive substrings, in the listed order), and
whitespace runs collapsed to single spaces. -/
def normalize_text_amended : Option (List Char) → List Char
  | none => []
  | some s =>
    joinSpace (pySplit
      (stopTokens.foldl (fun acc p => pyReplace p acc) (pyStrip (lowerStr s))))

/-- The output shape guaranteed by whitespace collapsing: the string carries
no leading or trailing whitespace, contains no two adjacent spaces, and every
whitespace character in it is a plain space. -/
def collapsedWs (u : List Char) : Prop :=
  pyStrip u = u ∧ ¬ ([spChar, spChar] <:+: u) ∧
    u.all (fun c => !isSpaceB c || decide (c = spChar)) = true

/-- Length of the longest common prefix of two character lists. -/
def commonPrefixLen : List Char → List Char → Nat
  | a :: as, b :: bs => if a = b then commonPrefixLen as bs + 1 else 0
  | _, _ => 0

/-- `SequenceMatcher.find_longest_match` (no junk, no autojunk): the matching
block of maximal size; ties broken by the smallest start in `a`, then the
smallest start in `b` (the fold scans starts in that order and replaces only
on a strictly larger size).  Returns `(i, j, size)`. -/
def bestBlock (a b : List Char) : Nat × Nat × Nat :=
  (List.range a.length).foldl
    (fun best i =>
      (List.range b.length).foldl
        (fun best j =>
          let k := commonPrefixLen (a.drop i) (b.drop j)
          if best.2.2 < k then (i, j, k) else best)
        best)
    (0, 0, 0)

/-- Total size of all matching blocks (`SequenceMatcher.get_matching_blocks`):
recursively match to the left and to the right of the longest block.  Each
recursive call strictly shrinks the `a`-part, so `fuel = a.length + 1`
suffices. -/
def matchCountF : Nat → List Char → List Char → Nat
  | 0, _, _ => 0
  | fuel+1, a, b =>
    let ijk := bestBlock a b
    if ijk.2.2 = 0 then 0
    else
      matchCountF fuel (a.take ijk.1) (b.take ijk.2.1) + ijk.2.2 +
        matchCountF fuel (a.drop (ijk.1 + ijk.2.2)) (b.drop (ijk.2.1 + ijk.2.2))

/-- `similarity` from `src/app2.py` lines 17-18:
`SequenceMatcher(None, a, b).ratio()`, that is `2 * M / (len(a) + len(b))`
with the convention that the ratio of two empty sequences is `1.0`. -/
def similarity (a b : List Char) : ℚ :=
  if a.length + b.length = 0 then 1
  else 2 * (matchCountF (a.length + 1) a b : ℚ) / ((a.length : ℚ) + (b.length : ℚ))

/-- Python `round` to the nearest integer, halves to even (banker's
rounding), as used by `int(round(amount / 10))`. -/
def pyRound (q : ℚ) : ℤ :=
  if q - (q.floor : ℚ) < 1/2 then q.floor
  else if 1/2 < q - (q.floor : ℚ) then q.floor + 1
  else if q.floor % 2 = 0 then q.floor else q.floor + 1

/-- A row of the internal ledger as `reconcile` consumes it:
`Transaction_ID`, `Date`, `Amount`, raw `Vendor`, and the derived
`Vendor_clean` column. -/
structure InternalTxn where
  tid : String
  date : ℤ
  amount : ℚ
  vendor : Option String
  vendorClean : List Char
deriving DecidableEq, Repr

/-- A row of the bank ledger: `Bank_Ref`, `Date`, `Amount`, raw
`Vendor_Name`, and the derived `Vendor_clean` column. -/
structure BankTxn where
  ref : String
  date : ℤ
  amount : ℚ
  vendorName : Option String
  vendorClean : List Char
deriving DecidableEq, Repr

/-- One record of the `matches` output (the dict built at lines 52-64). -/
structure MatchRecord where
  tid : String
  internalDate : ℤ
  internalAmount : ℚ
  vendorInternal : Option String
  bankRef : String
  bankDate : ℤ
  bankAmount : ℚ
  vendorBank : Option String
  vendorSimilarity : ℚ
  amountDiff : ℚ
  matchType : String
deriving DecidableEq, Repr

/-- The `best_match` tuple `(i, j, b, sim, amt_diff)` without its first
component: in the source the stored `i` always equals the index of the row
being processed, so the `internal_df.at[i_idx, …]` reads in the match dict
read the current row's fields. -/
structure Best where
  j : Nat
  b : BankTxn
  sim : ℚ
  amtDiff : ℚ
deriving DecidableEq, Repr

/-- The engine-local mutable state of one `reconcile` run: the used bank
positions, the accumulated matches, and the unmatched internal rows (the
source stores their indices and takes `.loc` at the end, which yields exactly
the rows in the recorded order). -/
structure RecState where
  used : List Nat
  matchList : List MatchRecord
  unmatchedInternal : List InternalTxn
deriving DecidableEq, Repr

/-- The amount-bucket index (lines 25-28): bucket `k` holds the pairs
`(position, row)` of the bank rows with `int(round(Amount / 10)) = k`, in
original order.  `dict.get(k, [])` on the insertion-ordered dict is
extensionally this position-preserving filter. -/
def bank_by_amount (bank_df : List BankTxn) (k : ℤ) : List (Nat × BankTxn) :=
  bank_df.enum.filter (fun jb => decide (pyRound (jb.2.amount / 10) = k))

/-- The concatenation of the three candidate buckets `[key-1, key, key+1]`
scanned by the inner loops of lines 37-47. -/
def candidateList (bank_df : List BankTxn) (key : ℤ) : List (Nat × BankTxn) :=
  bank_by_amount bank_df (key - 1) ++ bank_by_amount bank_df key ++
    bank_by_amount bank_df (key + 1)

/-- The inner candidate scan (lines 37-47) over the flattened bucket list,
carrying `(best_score, best_match)`.  Returns `none` when Python would raise
`ZeroDivisionError` in `score = sim - (amt_diff / (int_amt + 1)) * 0.25`,
that is when `int_amt + 1 = 0`. -/
def scanCandidates (date_tol_days : ℤ) (sim_threshold : ℚ) (t : InternalTxn)
    (used : List Nat) :
    List (Nat × BankTxn) → ℚ → Option Best → Option (ℚ × Option Best)
  | [], best_score, best_match => some (best_score, best_match)
  | (j, b) :: rest, best_score, best_match =>
    if j ∈ used then
      scanCandidates date_tol_days sim_threshold t used rest best_score best_match
    else if |t.date - b.date| ≤ date_tol_days then
      let sim := similarity t.vendorClean b.vendorClean
      let amt_diff := |t.amount - b.amount|
      if t.amount + 1 = 0 then none
      else
        let score := sim - amt_diff / (t.amount + 1) * (1/4)
        if best_score < score ∧ sim_threshold ≤ sim then
          scanCandidates date_tol_days sim_threshold t used rest score
            (some ⟨j, b, sim, amt_diff⟩)
        else
          scanCandidates date_tol_days sim_threshold t used rest best_score best_match
    else
      scanCandidates date_tol_days sim_threshold t used rest best_score best_match

/-- The match dict appended at lines 52-64. -/
def mkMatchRecord (t : InternalTxn) (c : Best) : MatchRecord :=
  { tid := t.tid
    internalDate := t.date
    internalAmount := t.amount
    vendorInternal := t.vendor
    bankRef := c.b.ref
    bankDate := c.b.date
    bankAmount := c.b.amount
    vendorBank := c.b.vendorName
    vendorSimilarity := c.sim
    amountDiff := c.amtDiff
    matchType := "Fuzzy" }

/-- One iteration of the main loop (lines 30-66) for internal row `t`:
bucket key, candidate scan with `best_score, best_match = 0, None`, then
either consume the selected bank position and emit a match, or record the
row as unmatched. -/
def reconcileStep (date_tol_days : ℤ) (sim_threshold : ℚ)
    (bank_df : List BankTxn) (st : RecState) (t : InternalTxn) : Option RecState :=
  match scanCandidates date_tol_days sim_threshold t st.used
      (candidateList bank_df (pyRound (t.amount / 10))) 0 none with
  | none => none
  | some (_, none) =>
    some { st with unmatchedInternal := st.unmatchedInternal ++ [t] }
  | some (_, some c) =>
    some { used := st.used ++ [c.j]
           matchList := st.matchList ++ [mkMatchRecord t c]
           unmatchedInternal := st.unmatchedInternal }

/-- The main loop over the internal rows in their given order. -/
def reconcileLoop (date_tol_days : ℤ) (sim_threshold : ℚ)
    (bank_df : List BankTxn) : List InternalTxn → RecState → Option RecState
  | [], st => some st
  | t :: rest, st =>
    match reconcileStep date_tol_days sim_threshold bank_df st t with
    | none => none
    | some st' => reconcileLoop date_tol_days sim_threshold bank_df rest st'

/-- `reconcile` from `src/app2.py` lines 20-74.  `amount_tol` is accepted but
never read by the algorithm, exactly as in the source.  The result is
`(matches, unmatched_internal, unmatched_bank)`; `unmatched_bank` is the list
of bank rows whose position was never marked used, in original order. -/
def reconcile (internal_df : List InternalTxn) (bank_df : List BankTxn)
    (date_tol_days : ℤ) (amount_tol : ℚ) (sim_threshold : ℚ) :
    Option (List MatchRecord × List InternalTxn × List BankTxn) :=
  match reconcileLoop date_tol_days sim_threshold bank_df internal_df ⟨[], [], []⟩ with
  | none => none
  | some st =>
    some (st.matchList, st.unmatchedInternal,
      (bank_df.enum.filter (fun jb => decide (jb.1 ∉ st.used))).map Prod.snd)

/-- The selection score of a candidate, `sim - (amt_diff / (int_amt + 1)) * 0.25`
(line 44), written over the stored fields of a `Best` tuple. -/
def scoreOf (t : InternalTxn) (c : Best) : ℚ :=
  c.sim - c.amtDiff / (t.amount + 1) * (1/4)

/-- Existence of a candidate that the matching loop would accept for `t`:
a not-yet-used bank position in the scanned bucket list, within date
tolerance, with similarity at or above the threshold and a strictly positive
score (the running best starts at `0`, so only such candidates can win). -/
def eligibleCand (date_tol_days : ℤ) (sim_threshold : ℚ) (t : InternalTxn)
    (used : List Nat) (cands : List (Nat × BankTxn)) : Prop :=
  ∃ j b, (j, b) ∈ cands ∧ j ∉ used ∧ |t.date - b.date| ≤ date_tol_days ∧
    sim_threshold ≤ similarity t.vendorClean b.vendorClean ∧
    0 < similarity t.vendorClean b.vendorClean
        - |t.amount - b.amount| / (t.amount + 1) * (1/4)

/-- Properties every emitted `MatchRecord` satisfies, stated over the
record's own fields. -/
def matchProps (date_tol_days : ℤ) (sim_threshold : ℚ) (m : MatchRecord) : Prop :=
  sim_threshold ≤ m.vendorSimilarity ∧
  |m.internalDate - m.bankDate| ≤ date_tol_days ∧
  m.amountDiff = |m.internalAmount - m.bankAmount| ∧
  0 ≤ m.amountDiff ∧
  0 < m.vendorSimilarity - m.amountDiff / (m.internalAmount + 1) * (1/4)

/-- Concrete data: the spec section 8 scenario `(T1, 2024-01-10, 1000.00,
"Acme Ltd")` vs `(B1, 2024-01-11, 1000.00, "ACME")`, with dates as day
numbers 0 and 1 and the `Vendor_clean` columns as the loader computes them
(`normalize_text` of both raw vendors is `"acme"`). -/
def tAcme : InternalTxn := ⟨"T1", 0, 1000, some ("Acme Ltd"), "acme".toList⟩

def bAcme : BankTxn := ⟨"B1", 1, 1000, some ("ACME"), "acme".toList⟩

def mrAcme : MatchRecord :=
  ⟨"T1", 0, 1000, some ("Acme Ltd"), "B1", 1, 1000, some ("ACME"), 1, 0, "Fuzzy"⟩

/-- Concrete data: internal amount `0.00` (the zero-amount scenario). -/
def tZero : InternalTxn := ⟨"T0", 0, 0, some ("acme"), "acme".toList⟩

def bZero : BankTxn := ⟨"B0", 0, 0, some ("acme"), "acme".toList⟩

def mrZero : MatchRecord :=
  ⟨"T0", 0, 0, some ("acme"), "B0", 0, 0, some ("acme"), 1, 0, "Fuzzy"⟩

/-- Concrete data: internal amount `-1`, which makes the scoring denominator
`int_amt + 1` zero as soon as a date-eligible candidate is scanned. -/
def tNeg : InternalTxn := ⟨"T2", 0, -1, some ("x"), "x".toList⟩

def bNeg : BankTxn := ⟨"B2", 0, 0, some ("x"), "x".toList⟩

/-- Concrete data: identical vendors (similarity `1`), same dates, but amount
difference `14` against internal amount `0`, giving score
`1 - (14/1) * 0.25 = -2.5 ≤ 0`. -/
def tC2 : InternalTxn := ⟨"T3", 0, 0, some ("acme"), "acme".toList⟩

def bC2 : BankTxn := ⟨"B3", 0, 14, some ("acme"), "acme".toList⟩

/-! ### Generic list helpers -/

theorem infixConsIff {l₁ l₂ : List Char} {a : Char} :
    l₁ <:+: a :: l₂ ↔ l₁ <+: a :: l₂ ∨ l₁ <:+: l₂ :=
  List.infix_cons_iff

theorem infixNilIff {l : List Char} : l <:+: ([] : List Char) ↔ l = [] :=
  List.infix_nil

theorem infixOfPre {l₁ l₂ : List Char} (h : l₁ <+: l₂) : l₁ <:+: l₂ := by
  obtain ⟨t, ht⟩ := h
  exact ⟨[], t, by simpa using ht⟩

theorem infixOfSuf {l₁ l₂ : List Char} (h : l₁ <:+ l₂) : l₁ <:+: l₂ := by
  obtain ⟨s, hs⟩ := h
  exact ⟨s, [], by simpa using hs⟩

theorem memOfInfix {l₁ l₂ : List Char} {c : Char} (h : l₁ <:+: l₂) (hc : c ∈ l₁) :
    c ∈ l₂ := by
  obtain ⟨s, t, rfl⟩ := h
  simp [hc]

theorem preOfTakeWhile (p : Char → Bool) (l : List Char) : l.takeWhile p <+: l :=
  ⟨l.dropWhile p, List.takeWhile_append_dropWhile p l⟩

/-! ### Lowercasing lemmas -/

theorem pyLower_toNat_of_upper {c : Char} (h : 65 ≤ c.toNat ∧ c.toNat ≤ 90) :
    (pyLower c).toNat = c.toNat + 32 := by
  unfold pyLower
  rw [dif_pos h]
  rfl

theorem pyLower_eq_of_not_upper {c : Char} (h : ¬ (65 ≤ c.toNat ∧ c.toNat ≤ 90)) :
    pyLower c = c := by
  unfold pyLower
  rw [dif_neg h]

theorem pyLower_idem (c : Char) : pyLower (pyLower c) = pyLower c := by
  by_cases h : 65 ≤ c.toNat ∧ c.toNat ≤ 90
  · have h1 : (pyLower c).toNat = c.toNat + 32 := pyLower_toNat_of_upper h
    refine pyLower_eq_of_not_upper ?_
    omega
  · rw [pyLower_eq_of_not_upper h, pyLower_eq_of_not_upper h]

theorem isSpaceB_spChar : isSpaceB spChar = true := by decide

theorem pyLower_spChar : pyLower spChar = spChar := by decide

/-! ### Lemmas about the replacement engine `replGen` -/

theorem replGen_eq_self {p : List Char} (r : List Char) :
    ∀ (fuel : Nat) (s : List Char), ¬ p <:+: s → replGen p r fuel s = s := by
  intro fuel
  induction fuel with
  | zero =>
    intro s _
    cases s <;> rfl
  | succ n ih =>
    intro s h
    cases s with
    | nil => rfl
    | cons c cs =>
      have hnp : ¬ p <+: c :: cs := fun hpre => h (infixOfPre hpre)
      have htl : ¬ p <:+: cs := fun hi => h (infixConsIff.mpr (Or.inr hi))
      rw [replGen, if_neg hnp, ih cs htl]

theorem preOfReplGenPre {p : List Char} :
    ∀ (fuel : Nat) (t q : List Char), q ≠ [] → spChar ∉ q →
      q <+: replGen p [spChar] fuel t → q <+: t := by
  intro fuel
  induction fuel with
  | zero =>
    intro t q hq _ h
    cases t with
    | nil =>
      simp only [replGen] at h
      exact absurd (List.prefix_nil.mp h) hq
    | cons d t' => exact h
  | succ n ih =>
    intro t q hq hsp h
    cases t with
    | nil =>
      simp only [replGen] at h
      exact absurd (List.prefix_nil.mp h) hq
    | cons d t' =>
      by_cases hp : p <+: d :: t'
      · rw [replGen, if_pos hp] at h
        cases q with
        | nil => exact absurd rfl hq
        | cons a q' =>
          have ha : a = spChar := (List.cons_prefix_cons.mp (by simpa using h)).1
          exact absurd (ha ▸ List.mem_cons_self a q') hsp
      · rw [replGen, if_neg hp] at h
        cases q with
        | nil => exact absurd rfl hq
        | cons a q' =>
          obtain ⟨rfl, hq'⟩ := List.cons_prefix_cons.mp h
          by_cases h0 : q' = []
          · subst h0
            exact ⟨t', rfl⟩
          · have hsp' : spChar ∉ q' := fun hm => hsp (List.mem_cons_of_mem _ hm)
            exact List.cons_prefix_cons.mpr ⟨rfl, ih t' q' h0 hsp' hq'⟩

theorem not_infix_replGen_self {p : List Char} (hp : p ≠ []) (hsp : spChar ∉ p) :
    ∀ (fuel : Nat) (s : List Char), s.length ≤ fuel →
      ¬ p <:+: replGen p [spChar] fuel s := by
  intro fuel
  induction fuel with
  | zero =>
    intro s hl
    have hs : s = [] := List.eq_nil_of_length_eq_zero (Nat.le_zero.mp hl)
    subst hs
    simp only [replGen]
    exact fun hi => hp (infixNilIff.mp hi)
  | succ n ih =>
    intro s hl
    cases s with
    | nil =>
      simp only [replGen]
      exact fun hi => hp (infixNilIff.mp hi)
    | cons c cs =>
      have hcs : cs.length ≤ n := by
        simpa using hl
      by_cases hpre : p <+: c :: cs
      · rw [replGen, if_pos hpre]
        intro hinf
        rcases infixConsIff.mp (by simpa using hinf) with h1 | h2
        · cases p with
          | nil => exact hp rfl
          | cons a p' =>
            have ha : a = spChar := (List.cons_prefix_cons.mp h1).1
            exact hsp (ha ▸ List.mem_cons_self a p')
        · have hlen : (cs.drop (p.length - 1)).length ≤ n := by
            have := List.length_drop (p.length - 1) cs
            omega
          exact ih _ hlen h2
      · rw [replGen, if_neg hpre]
        intro hinf
        rcases infixConsIff.mp hinf with h1 | h2
        · cases p with
          | nil => exact hp rfl
          | cons a p' =>
            obtain ⟨rfl, hp'⟩ := List.cons_prefix_cons.mp h1
            by_cases h0 : p' = []
            · subst h0
              exact hpre ⟨cs, rfl⟩
            · have hsp' : spChar ∉ p' := fun hm => hsp (List.mem_cons_of_mem _ hm)
              exact hpre (List.cons_prefix_cons.mpr ⟨rfl, preOfReplGenPre n cs p' h0 hsp' hp'⟩)
        · exact ih cs hcs h2

theorem not_infix_replGen_mono {p q : List Char} (hq : q ≠ []) (hsq : spChar ∉ q) :
    ∀ (fuel : Nat) (t : List Char), ¬ q <:+: t →
      ¬ q <:+: replGen p [spChar] fuel t := by
  intro fuel
  induction fuel with
  | zero =>
    intro t h
    cases t with
    | nil => simpa only [replGen] using h
    | cons d t' => exact h
  | succ n ih =>
    intro t h
    cases t with
    | nil => simpa only [replGen] using h
    | cons d t' =>
      have htail : ¬ q <:+: t' := fun hi => h (infixConsIff.mpr (Or.inr hi))
      by_cases hpre : p <+: d :: t'
      · rw [replGen, if_pos hpre]
        intro hinf
        rcases infixConsIff.mp (by simpa using hinf) with h1 | h2
        · cases q with
          | nil => exact hq rfl
          | cons a q' =>
            have ha : a = spChar := (List.cons_prefix_cons.mp h1).1
            exact hsq (ha ▸ List.mem_cons_self a q')
        · have hdrop : ¬ q <:+: t'.drop (p.length - 1) := fun hi =>
            htail (hi.trans (infixOfSuf (List.drop_suffix _ _)))
          exact ih _ hdrop h2
      · rw [replGen, if_neg hpre]
        intro hinf
        rcases infixConsIff.mp hinf with h1 | h2
        · cases q with
          | nil => exact hq rfl
          | cons a q' =>
            obtain ⟨rfl, hq'⟩ := List.cons_prefix_cons.mp h1
            by_cases h0 : q' = []
            · subst h0
              exact h (infixOfPre ⟨t', rfl⟩)
            · have hsq' : spChar ∉ q' := fun hm => hsq (List.mem_cons_of_mem _ hm)
              exact h (infixOfPre (List.cons_prefix_cons.mpr ⟨rfl, preOfReplGenPre n t' q' h0 hsq' hq'⟩))
        · exact ih t' htail h2

theorem mem_replGen {p : List Char} :
    ∀ (fuel : Nat) (s : List Char) (c : Char),
      c ∈ replGen p [spChar] fuel s → c ∈ s ∨ c = spChar := by
  intro fuel
  induction fuel with
  | zero =>
    intro s c h
    cases s with
    | nil => simp only [replGen] at h; cases h
    | cons d s' => exact Or.inl h
  | succ n ih =>
    intro s c h
    cases s with
    | nil => simp only [replGen] at h; cases h
    | cons d s' =>
      by_cases hpre : p <+: d :: s'
      · rw [replGen, if_pos hpre] at h
        rcases List.mem_append.mp h with h1 | h2
        · exact Or.inr (List.mem_singleton.mp h1)
        · rcases ih _ c h2 with h3 | h3
          · exact Or.inl (List.mem_cons_of_mem d ((List.drop_suffix _ _).sublist.subset h3))
          · exact Or.inr h3
      · rw [replGen, if_neg hpre] at h
        rcases List.mem_cons.mp h with rfl | h2
        · exact Or.inl (List.mem_cons_self c s')
        · rcases ih _ c h2 with h3 | h3
          · exact Or.inl (List.mem_cons_of_mem d h3)
          · exact Or.inr h3

/-! ### Lemmas about the stop-token fold -/

theorem stopTokens_wf : ∀ p ∈ stopTokens, p ≠ [] ∧ spChar ∉ p := by decide

theorem not_infix_foldl_replace {q : List Char} (hq : q ≠ []) (hsq : spChar ∉ q) :
    ∀ (toks : List (List Char)) (s : List Char), ¬ q <:+: s →
      ¬ q <:+: toks.foldl (fun acc p => pyReplace p acc) s := by
  intro toks
  induction toks with
  | nil => intro s h; simpa using h
  | cons p rest ih =>
    intro s h
    simp only [List.foldl_cons]
    exact ih _ (not_infix_replGen_mono hq hsq _ _ h)

theorem not_infix_stop_fold :
    ∀ (toks : List (List Char)), (∀ p ∈ toks, p ≠ [] ∧ spChar ∉ p) →
      ∀ (s p : List Char), p ∈ toks →
        ¬ p <:+: toks.foldl (fun acc q => pyReplace q acc) s := by
  intro toks
  induction toks with
  | nil => intro _ s p h; cases h
  | cons p₁ rest ih =>
    intro hwf s p hmem
    simp only [List.foldl_cons]
    rcases List.mem_cons.mp hmem with rfl | hmem'
    · obtain ⟨h1, h2⟩ := hwf p (List.mem_cons_self p rest)
      exact not_infix_foldl_replace h1 h2 rest _
        (not_infix_replGen_self h1 h2 s.length s le_rfl)
    · exact ih (fun q hq => hwf q (List.mem_cons_of_mem _ hq)) _ p hmem'

theorem foldl_replace_eq_self :
    ∀ (toks : List (List Char)) (s : List Char), (∀ p ∈ toks, ¬ p <:+: s) →
      toks.foldl (fun acc p => pyReplace p acc) s = s := by
  intro toks
  induction toks with
  | nil => intro s _; rfl
  | cons p rest ih =>
    intro s h
    simp only [List.foldl_cons]
    have hid : pyReplace p s = s :=
      replGen_eq_self [spChar] s.length s (h p (List.mem_cons_self p rest))
    rw [hid]
    exact ih s (fun q hq => h q (List.mem_cons_of_mem _ hq))

theorem mem_foldl_replace :
    ∀ (toks : List (List Char)) (s : List Char) (c : Char),
      c ∈ toks.foldl (fun acc p => pyReplace p acc) s → c ∈ s ∨ c = spChar := by
  intro toks
  induction toks with
  | nil => intro s c h; exact Or.inl h
  | cons p rest ih =>
    intro s c h
    simp only [List.foldl_cons] at h
    rcases ih _ c h with h1 | h1
    · exact mem_replGen _ _ c h1
    · exact Or.inr h1

/-! ### Lemmas about splitting and joining -/

theorem pySplitF_words :
    ∀ (fuel : Nat) (t w : List Char), w ∈ pySplitF fuel t →
      w ≠ [] ∧ ∀ c ∈ w, isSpaceB c = false := by
  intro fuel
  induction fuel with
  | zero =>
    intro t w hw
    cases t with
    | nil => simp only [pySplitF] at hw; cases hw
    | cons c rest => simp only [pySplitF] at hw; cases hw
  | succ n ih =>
    intro t w hw
    cases t with
    | nil => simp only [pySplitF] at hw; cases hw
    | cons c rest =>
      by_cases hc : isSpaceB c = true
      · rw [pySplitF, if_pos hc] at hw
        exact ih rest w hw
      · rw [pySplitF, if_neg hc] at hw
        rcases List.mem_cons.mp hw with rfl | hw'
        · refine ⟨by simp, ?_⟩
          intro d hd
          rcases List.mem_cons.mp hd with rfl | hd'
          · simpa using hc
          · simpa using List.mem_takeWhile_imp hd'
        · exact ih _ w hw'

theorem pySplitF_infix_of_mem :
    ∀ (fuel : Nat) (t w : List Char), w ∈ pySplitF fuel t → w <:+: t := by
  intro fuel
  induction fuel with
  | zero =>
    intro t w hw
    cases t with
    | nil => simp only [pySplitF] at hw; cases hw
    | cons c rest => simp only [pySplitF] at hw; cases hw
  | succ n ih =>
    intro t w hw
    cases t with
    | nil => simp only [pySplitF] at hw; cases hw
    | cons c rest =>
      by_cases hc : isSpaceB c = true
      · rw [pySplitF, if_pos hc] at hw
        exact infixConsIff.mpr (Or.inr (ih rest w hw))
      · rw [pySplitF, if_neg hc] at hw
        rcases List.mem_cons.mp hw with rfl | hw'
        · exact infixOfPre
            (List.cons_prefix_cons.mpr ⟨rfl, preOfTakeWhile _ rest⟩)
        · exact infixConsIff.mpr
            (Or.inr ((ih _ w hw').trans (infixOfSuf (List.dropWhile_suffix _))))

theorem joinSpace_mem :
    ∀ (ws : List (List Char)) (c : Char), c ∈ joinSpace ws →
      (∃ w ∈ ws, c ∈ w) ∨ c = spChar := by
  intro ws
  induction ws with
  | nil => intro c h; simp only [joinSpace] at h; cases h
  | cons w tail ih =>
    intro c h
    cases tail with
    | nil =>
      simp only [joinSpace] at h
      exact Or.inl ⟨w, List.mem_cons_self w [], h⟩
    | cons x ws' =>
      simp only [joinSpace] at h
      rcases List.mem_append.mp h with h1 | h1
      · exact Or.inl ⟨w, List.mem_cons_self w (x :: ws'), h1⟩
      · rcases List.mem_cons.mp h1 with rfl | h2
        · exact Or.inr rfl
        · rcases ih c h2 with ⟨w', hw', hc⟩ | h3
          · exact Or.inl ⟨w', List.mem_cons_of_mem _ hw', hc⟩
          · exact Or.inr h3

theorem takeWhile_append_stop {pr : Char → Bool} :
    ∀ (w : List Char), (∀ c ∈ w, pr c = true) → ∀ {d : Char}, pr d = false →
    ∀ (z : List Char), (w ++ d :: z).takeWhile pr = w := by
  intro w
  induction w with
  | nil =>
    intro _ d hd z
    simp [List.takeWhile_cons, hd]
  | cons a w' ih =>
    intro hw d hd z
    have ha : pr a = true := hw a (List.mem_cons_self a w')
    simp only [List.cons_append, List.takeWhile_cons, ha, if_true]
    rw [ih (fun c hc => hw c (List.mem_cons_of_mem _ hc)) hd z]

theorem dropWhile_append_stop {pr : Char → Bool} :
    ∀ (w : List Char), (∀ c ∈ w, pr c = true) → ∀ {d : Char}, pr d = false →
    ∀ (z : List Char), (w ++ d :: z).dropWhile pr = d :: z := by
  intro w
  induction w with
  | nil =>
    intro _ d hd z
    simp [List.dropWhile_cons, hd]
  | cons a w' ih =>
    intro hw d hd z
    have ha : pr a = true := hw a (List.mem_cons_self a w')
    simp only [List.cons_append, List.dropWhile_cons, ha, if_true]
    exact ih (fun c hc => hw c (List.mem_cons_of_mem _ hc)) hd z

theorem takeWhile_all_true {pr : Char → Bool} :
    ∀ (t : List Char), (∀ c ∈ t, pr c = true) → t.takeWhile pr = t := by
  intro t
  induction t with
  | nil => intro _; rfl
  | cons a t' ih =>
    intro h
    simp only [List.takeWhile_cons, h a (List.mem_cons_self a t'), if_true]
    rw [ih (fun c hc => h c (List.mem_cons_of_mem _ hc))]

theorem dropWhile_all_true {pr : Char → Bool} :
    ∀ (t : List Char), (∀ c ∈ t, pr c = true) → t.dropWhile pr = [] := by
  intro t
  induction t with
  | nil => intro _; rfl
  | cons a t' ih =>
    intro h
    simp only [List.dropWhile_cons, h a (List.mem_cons_self a t'), if_true]
    exact ih (fun c hc => h c (List.mem_cons_of_mem _ hc))

theorem dropWhile_all_false {pr : Char → Bool} :
    ∀ (t : List Char), (∀ c ∈ t, pr c = false) → t.dropWhile pr = t := by
  intro t
  induction t with
  | nil => intro _; rfl
  | cons a t' _ =>
    intro h
    simp [List.dropWhile_cons, h a (List.mem_cons_self a t')]

theorem joinSpace_ne_nil :
    ∀ (ws : List (List Char)), (∀ w ∈ ws, w ≠ []) → ws ≠ [] → joinSpace ws ≠ [] := by
  intro ws hwf hne
  cases ws with
  | nil => exact absurd rfl hne
  | cons w tail =>
    cases tail with
    | nil => exact hwf w (List.mem_cons_self w [])
    | cons x ws' =>
      simp only [joinSpace]
      intro h
      rcases List.append_eq_nil.mp h with ⟨h1, h2⟩
      exact hwf w (List.mem_cons_self w _) h1

theorem joinSpace_head :
    ∀ (x : List Char) (ws' : List (List Char)),
      (∀ w ∈ x :: ws', w ≠ [] ∧ ∀ c ∈ w, isSpaceB c = false) →
      ∃ c r2, joinSpace (x :: ws') = c :: r2 ∧ isSpaceB c = false := by
  intro x ws' hwf
  obtain ⟨hne, hnsp⟩ := hwf x (List.mem_cons_self x ws')
  cases x with
  | nil => exact absurd rfl hne
  | cons c x' =>
    have hc : isSpaceB c = false := hnsp c (List.mem_cons_self c x')
    cases ws' with
    | nil => exact ⟨c, x', rfl, hc⟩
    | cons y ws'' =>
      exact ⟨c, x' ++ spChar :: joinSpace (y :: ws''), by simp [joinSpace], hc⟩

theorem pySplitF_joinSpace :
    ∀ (ws : List (List Char)),
      (∀ w ∈ ws, w ≠ [] ∧ ∀ c ∈ w, isSpaceB c = false) →
      ∀ (fuel : Nat), (joinSpace ws).length ≤ fuel →
        pySplitF fuel (joinSpace ws) = ws := by
  intro ws
  induction ws with
  | nil =>
    intro _ fuel _
    cases fuel <;> rfl
  | cons w tail ih =>
    intro hwf fuel hfuel
    obtain ⟨hne, hnsp⟩ := hwf w (List.mem_cons_self w tail)
    cases tail with
    | nil =>
      cases w with
      | nil => exact absurd rfl hne
      | cons c w' =>
        cases fuel with
        | zero => simp [joinSpace] at hfuel
        | succ n =>
          have hc : isSpaceB c = false := hnsp c (List.mem_cons_self c w')
          have hw' : ∀ d ∈ w', (!isSpaceB d) = true := by
            intro d hd
            simp [hnsp d (List.mem_cons_of_mem _ hd)]
          simp only [joinSpace, pySplitF, hc, Bool.false_eq_true, if_false]
          rw [takeWhile_all_true w' hw', dropWhile_all_true w' hw']
          cases n <;> rfl
    | cons x ws' =>
      cases w with
      | nil => exact absurd rfl hne
      | cons c w' =>
        cases fuel with
        | zero => simp [joinSpace] at hfuel
        | succ n =>
          have hc : isSpaceB c = false := hnsp c (List.mem_cons_self c w')
          have hw' : ∀ d ∈ w', (!isSpaceB d) = true := by
            intro d hd
            simp [hnsp d (List.mem_cons_of_mem _ hd)]
          have hsep : (!isSpaceB spChar) = false := by
            simp [isSpaceB_spChar]
          have hJlen : (joinSpace (x :: ws')).length + 1 ≤ n := by
            have : (c :: w' ++ spChar :: joinSpace (x :: ws')).length ≤ n + 1 := by
              simpa [joinSpace] using hfuel
            simp only [List.length_append, List.length_cons] at this ⊢
            omega
          simp only [joinSpace, List.cons_append, pySplitF, hc, Bool.false_eq_true, if_false,
            List.append_eq]
          rw [takeWhile_append_stop w' hw' hsep, dropWhile_append_stop w' hw' hsep]
          cases n with
          | zero => simp at hJlen
          | succ m =>
            rw [pySplitF, if_pos isSpaceB_spChar]
            rw [ih (fun q hq => hwf q (List.mem_cons_of_mem _ hq)) m (by omega)]

theorem dropWhile_head_false {pr : Char → Bool} {t : List Char} {a : Char} {t' : List Char}
    (heq : t.dropWhile pr = t) (ht : t = a :: t') : pr a = false := by
  subst ht
  by_contra h
  have ha : pr a = true := by
    cases hpa : pr a
    · exact absurd hpa h
    · rfl
  rw [List.dropWhile_cons, if_pos ha] at heq
  have h1 : (t'.dropWhile pr).length ≤ t'.length :=
    (List.dropWhile_suffix pr).sublist.length_le
  have h2 : (t'.dropWhile pr).length = t'.length + 1 := by rw [heq]; simp
  omega

theorem joinSpace_dropWhile :
    ∀ (ws : List (List Char)),
      (∀ w ∈ ws, w ≠ [] ∧ ∀ c ∈ w, isSpaceB c = false) →
      (joinSpace ws).dropWhile isSpaceB = joinSpace ws := by
  intro ws hwf
  cases ws with
  | nil => rfl
  | cons x ws' =>
    obtain ⟨c, r2, heq, hc⟩ := joinSpace_head x ws' hwf
    rw [heq, List.dropWhile_cons, if_neg (by simp [hc])]

theorem joinSpace_rev_dropWhile :
    ∀ (ws : List (List Char)),
      (∀ w ∈ ws, w ≠ [] ∧ ∀ c ∈ w, isSpaceB c = false) →
      (joinSpace ws).reverse.dropWhile isSpaceB = (joinSpace ws).reverse := by
  intro ws
  induction ws with
  | nil => intro _; rfl
  | cons w tail ih =>
    intro hwf
    obtain ⟨hne, hnsp⟩ := hwf w (List.mem_cons_self w tail)
    cases tail with
    | nil =>
      simp only [joinSpace]
      refine dropWhile_all_false w.reverse ?_
      intro d hd
      exact hnsp d (List.mem_reverse.mp hd)
    | cons x ws' =>
      have hwf' : ∀ q ∈ x :: ws', q ≠ [] ∧ ∀ c ∈ q, isSpaceB c = false :=
        fun q hq => hwf q (List.mem_cons_of_mem _ hq)
      have hJne : joinSpace (x :: ws') ≠ [] :=
        joinSpace_ne_nil (x :: ws') (fun q hq => (hwf' q hq).1) (by simp)
      have ihx := ih hwf'
      have hrev : (joinSpace (w :: x :: ws')).reverse
          = (joinSpace (x :: ws')).reverse ++ spChar :: w.reverse := by
        simp [joinSpace, List.reverse_append]
      rw [hrev]
      obtain ⟨a, rr, har⟩ : ∃ a rr, (joinSpace (x :: ws')).reverse = a :: rr := by
        cases hj : (joinSpace (x :: ws')).reverse with
        | nil =>
          exact absurd (by simpa using hj) hJne
        | cons a rr => exact ⟨a, rr, rfl⟩
      have ha : isSpaceB a = false := dropWhile_head_false ihx har
      rw [har, List.cons_append, List.dropWhile_cons, if_neg (by simp [ha])]

theorem pyStrip_joinSpace :
    ∀ (ws : List (List Char)),
      (∀ w ∈ ws, w ≠ [] ∧ ∀ c ∈ w, isSpaceB c = false) →
      pyStrip (joinSpace ws) = joinSpace ws := by
  intro ws hwf
  unfold pyStrip
  rw [joinSpace_dropWhile ws hwf, joinSpace_rev_dropWhile ws hwf, List.reverse_reverse]

theorem preThroughSep {z : List Char} :
    ∀ (w q : List Char), spChar ∉ q → q <+: w ++ spChar :: z → q <+: w := by
  intro w
  induction w with
  | nil =>
    intro q hsp h
    cases q with
    | nil => exact List.nil_prefix
    | cons a q' =>
      have ha : a = spChar := (List.cons_prefix_cons.mp (by simpa using h)).1
      exact absurd (ha ▸ List.mem_cons_self a q') hsp
  | cons b w' ih =>
    intro q hsp h
    cases q with
    | nil => exact List.nil_prefix
    | cons a q' =>
      rw [List.cons_append] at h
      obtain ⟨rfl, hq'⟩ := List.cons_prefix_cons.mp h
      have hsp' : spChar ∉ q' := fun hm => hsp (List.mem_cons_of_mem _ hm)
      exact List.cons_prefix_cons.mpr ⟨rfl, ih q' hsp' hq'⟩

theorem infix_split_sep {p : List Char} (hp : p ≠ []) (hsp : spChar ∉ p) :
    ∀ (w z : List Char), p <:+: w ++ spChar :: z → p <:+: w ∨ p <:+: z := by
  intro w
  induction w with
  | nil =>
    intro z h
    rcases infixConsIff.mp (by simpa using h) with h1 | h2
    · cases p with
      | nil => exact absurd rfl hp
      | cons a p' =>
        have ha : a = spChar := (List.cons_prefix_cons.mp h1).1
        exact absurd (ha ▸ List.mem_cons_self a p') hsp
    · exact Or.inr h2
  | cons c w' ih =>
    intro z h
    rw [List.cons_append] at h
    rcases infixConsIff.mp h with h1 | h2
    · cases p with
      | nil => exact absurd rfl hp
      | cons a p' =>
        obtain ⟨rfl, hp'⟩ := List.cons_prefix_cons.mp h1
        have hsp' : spChar ∉ p' := fun hm => hsp (List.mem_cons_of_mem _ hm)
        exact Or.inl (infixOfPre (List.cons_prefix_cons.mpr ⟨rfl, preThroughSep w' p' hsp' hp'⟩))
    · rcases ih z h2 with h3 | h3
      · exact Or.inl (infixConsIff.mpr (Or.inr h3))
      · exact Or.inr h3

theorem infix_joinSpace {p : List Char} (hp : p ≠ []) (hsp : spChar ∉ p) :
    ∀ (ws : List (List Char)), p <:+: joinSpace ws → ∃ w ∈ ws, p <:+: w := by
  intro ws
  induction ws with
  | nil =>
    intro h
    exact absurd (infixNilIff.mp h) hp
  | cons w tail ih =>
    intro h
    cases tail with
    | nil => exact ⟨w, List.mem_cons_self w [], h⟩
    | cons x ws' =>
      simp only [joinSpace] at h
      rcases infix_split_sep hp hsp w _ h with h1 | h1
      · exact ⟨w, List.mem_cons_self w _, h1⟩
      · obtain ⟨w', hw', hpw'⟩ := ih h1
        exact ⟨w', List.mem_cons_of_mem _ hw', hpw'⟩

theorem dbl_space_sep {J : List Char} (hJhd : ¬ [spChar] <+: J)
    (hJ : ¬ [spChar, spChar] <:+: J) :
    ∀ (w : List Char), (∀ c ∈ w, isSpaceB c = false) →
      ¬ [spChar, spChar] <:+: w ++ spChar :: J := by
  intro w
  induction w with
  | nil =>
    intro _ h
    rcases infixConsIff.mp (by simpa using h) with h1 | h2
    · exact hJhd (List.cons_prefix_cons.mp h1).2
    · exact hJ h2
  | cons c w' ih =>
    intro hw h
    rw [List.cons_append] at h
    rcases infixConsIff.mp h with h1 | h2
    · have hc : c = spChar := ((List.cons_prefix_cons.mp h1).1).symm
      have := hw c (List.mem_cons_self c w')
      rw [hc, isSpaceB_spChar] at this
      cases this
    · exact ih (fun d hd => hw d (List.mem_cons_of_mem _ hd)) h2

theorem no_dbl_space_join :
    ∀ (ws : List (List Char)),
      (∀ w ∈ ws, w ≠ [] ∧ ∀ c ∈ w, isSpaceB c = false) →
      ¬ [spChar, spChar] <:+: joinSpace ws := by
  intro ws
  induction ws with
  | nil =>
    intro _ h
    simp only [joinSpace] at h
    exact absurd (infixNilIff.mp h) (by simp)
  | cons w tail ih =>
    intro hwf
    cases tail with
    | nil =>
      intro h
      have hmem : spChar ∈ w := memOfInfix h (List.mem_cons_self _ _)
      have := (hwf w (List.mem_cons_self w [])).2 spChar hmem
      rw [isSpaceB_spChar] at this
      cases this
    | cons x ws' =>
      have hwf' : ∀ q ∈ x :: ws', q ≠ [] ∧ ∀ c ∈ q, isSpaceB c = false :=
        fun q hq => hwf q (List.mem_cons_of_mem _ hq)
      obtain ⟨c, r2, heq, hc⟩ := joinSpace_head x ws' hwf'
      have hJhd : ¬ [spChar] <+: joinSpace (x :: ws') := by
        rw [heq]
        intro hpre
        have : spChar = c := (List.cons_prefix_cons.mp hpre).1
        rw [← this, isSpaceB_spChar] at hc
        cases hc
      simp only [joinSpace]
      exact dbl_space_sep hJhd (ih hwf') w (hwf w (List.mem_cons_self w _)).2

/-! ### Shape of `normalize_text` output -/

theorem pySplit_words (t : List Char) :
    ∀ w ∈ pySplit t, w ≠ [] ∧ ∀ c ∈ w, isSpaceB c = false :=
  fun w hw => pySplitF_words t.length t w hw

theorem pyStrip_subset (t : List Char) : ∀ c ∈ pyStrip t, c ∈ t := by
  intro c hc
  unfold pyStrip at hc
  rw [List.mem_reverse] at hc
  have h1 := (List.dropWhile_suffix isSpaceB).sublist.subset hc
  rw [List.mem_reverse] at h1
  exact (List.dropWhile_suffix isSpaceB).sublist.subset h1

theorem joinSpace_pySplit_collapsed (t : List Char) :
    collapsedWs (joinSpace (pySplit t)) := by
  have hwf := pySplit_words t
  refine ⟨pyStrip_joinSpace _ hwf, no_dbl_space_join _ hwf, ?_⟩
  rw [List.all_eq_true]
  intro c hc
  rcases joinSpace_mem _ c hc with ⟨w, hw, hcw⟩ | rfl
  · simp [(hwf w hw).2 c hcw]
  · simp

theorem normalize_collapsedWs (s : List Char) :
    collapsedWs (normalize_text (some s)) :=
  joinSpace_pySplit_collapsed _

theorem normalize_lower_fixed (s : List Char) :
    ∀ c ∈ normalize_text (some s), pyLower c = c := by
  intro c hc
  simp only [normalize_text] at hc
  rcases joinSpace_mem _ c hc with ⟨w, hw, hcw⟩ | rfl
  · have hcv := memOfInfix (pySplitF_infix_of_mem _ _ w hw) hcw
    rcases mem_foldl_replace _ _ c hcv with h1 | rfl
    · obtain ⟨d, _, rfl⟩ := List.mem_map.mp (pyStrip_subset _ c h1)
      exact pyLower_idem d
    · exact pyLower_spChar
  · exact pyLower_spChar

theorem normalize_no_stop (s : List Char) :
    ∀ p ∈ stopTokens, ¬ p <:+: normalize_text (some s) := by
  intro p hp hinf
  obtain ⟨hne, hsp⟩ := stopTokens_wf p hp
  simp only [normalize_text] at hinf
  obtain ⟨w, hw, hpw⟩ := infix_joinSpace hne hsp _ hinf
  exact not_infix_stop_fold stopTokens stopTokens_wf _ p hp
    (hpw.trans (pySplitF_infix_of_mem _ _ w hw))

theorem joinSpace_pySplit_of_join (t : List Char) :
    joinSpace (pySplit (joinSpace (pySplit t))) = joinSpace (pySplit t) := by
  have hwf := pySplit_words t
  have h1 : pySplit (joinSpace (pySplit t)) = pySplit t := by
    unfold pySplit
    exact pySplitF_joinSpace _ hwf _ le_rfl
  rw [h1]

theorem normalize_text_idem_aux (s : List Char) :
    normalize_text (some (normalize_text (some s))) = normalize_text (some s) := by
  have hlow : lowerStr (normalize_text (some s)) = normalize_text (some s) := by
    unfold lowerStr
    have h := List.map_congr_left (normalize_lower_fixed s)
    rw [h, List.map_id']
  have hstrip : pyStrip (normalize_text (some s)) = normalize_text (some s) :=
    (normalize_collapsedWs s).1
  have hfold : stopTokens.foldl (fun acc p => pyReplace p acc) (normalize_text (some s))
      = normalize_text (some s) :=
    foldl_replace_eq_self _ _ (normalize_no_stop s)
  have hres : normalize_text (some (normalize_text (some s)))
      = joinSpace (pySplit (stopTokens.foldl (fun acc p => pyReplace p acc)
          (pyStrip (lowerStr (normalize_text (some s)))))) := rfl
  rw [hres, hlow, hstrip, hfold]
  show joinSpace (pySplit (joinSpace (pySplit _))) = _
  exact joinSpace_pySplit_of_join _

/-! ### Lemmas about the candidate scan -/

theorem scan_isSome {date_tol_days : ℤ} {sim_threshold : ℚ} {t : InternalTxn}
    {used : List Nat} (h : t.amount + 1 ≠ 0) :
    ∀ (cands : List (Nat × BankTxn)) (bs : ℚ) (bm : Option Best),
      (scanCandidates date_tol_days sim_threshold t used cands bs bm).isSome = true := by
  intro cands
  induction cands with
  | nil => intro bs bm; rfl
  | cons jb rest ih =>
    intro bs bm
    obtain ⟨j, b⟩ := jb
    simp only [scanCandidates]
    by_cases h1 : j ∈ used
    · rw [if_pos h1]; exact ih bs bm
    · rw [if_neg h1]
      by_cases h2 : |t.date - b.date| ≤ date_tol_days
      · rw [if_pos h2, if_neg h]
        by_cases h4 : bs < similarity t.vendorClean b.vendorClean
            - |t.amount - b.amount| / (t.amount + 1) * (1/4) ∧
            sim_threshold ≤ similarity t.vendorClean b.vendorClean
        · rw [if_pos h4]; exact ih _ _
        · rw [if_neg h4]; exact ih bs bm
      · rw [if_neg h2]; exact ih bs bm

theorem scan_sound {date_tol_days : ℤ} {sim_threshold : ℚ} {t : InternalTxn}
    {used : List Nat} :
    ∀ (cands : List (Nat × BankTxn)) (bs : ℚ) (bm : Option Best)
      (out : ℚ × Option Best),
      scanCandidates date_tol_days sim_threshold t used cands bs bm = some out →
      out = (bs, bm) ∨
      (∃ c, out.2 = some c ∧ (c.j, c.b) ∈ cands ∧ c.j ∉ used ∧
        |t.date - c.b.date| ≤ date_tol_days ∧
        c.sim = similarity t.vendorClean c.b.vendorClean ∧
        c.amtDiff = |t.amount - c.b.amount| ∧
        sim_threshold ≤ c.sim ∧
        out.1 = scoreOf t c ∧ bs < out.1) := by
  intro cands
  induction cands with
  | nil =>
    intro bs bm out h
    simp only [scanCandidates, Option.some_inj] at h
    exact Or.inl h.symm
  | cons jb rest ih =>
    intro bs bm out h
    obtain ⟨j, b⟩ := jb
    simp only [scanCandidates] at h
    by_cases h1 : j ∈ used
    · rw [if_pos h1] at h
      rcases ih _ _ _ h with h' | ⟨c, hc1, hc2, hc⟩
      · exact Or.inl h'
      · exact Or.inr ⟨c, hc1, List.mem_cons_of_mem _ hc2, hc⟩
    · rw [if_neg h1] at h
      by_cases h2 : |t.date - b.date| ≤ date_tol_days
      · rw [if_pos h2] at h
        by_cases h3 : t.amount + 1 = 0
        · rw [if_pos h3] at h
          cases h
        · rw [if_neg h3] at h
          by_cases h4 : bs < similarity t.vendorClean b.vendorClean
              - |t.amount - b.amount| / (t.amount + 1) * (1/4) ∧
              sim_threshold ≤ similarity t.vendorClean b.vendorClean
          · rw [if_pos h4] at h
            rcases ih _ _ _ h with h' | ⟨c, hc1, hc2, hc3, hc4, hc5, hc6, hc7, hc8, hc9⟩
            · refine Or.inr ⟨⟨j, b, similarity t.vendorClean b.vendorClean,
                |t.amount - b.amount|⟩, ?_, ?_, h1, h2, rfl, rfl, h4.2, ?_, ?_⟩
              · rw [h']
              · exact List.mem_cons_self _ _
              · rw [h']; rfl
              · rw [h']; exact h4.1
            · refine Or.inr ⟨c, hc1, List.mem_cons_of_mem _ hc2, hc3, hc4, hc5, hc6, hc7,
                hc8, ?_⟩
              exact lt_trans h4.1 hc9
          · rw [if_neg h4] at h
            rcases ih _ _ _ h with h' | ⟨c, hc1, hc2, hc⟩
            · exact Or.inl h'
            · exact Or.inr ⟨c, hc1, List.mem_cons_of_mem _ hc2, hc⟩
      · rw [if_neg h2] at h
        rcases ih _ _ _ h with h' | ⟨c, hc1, hc2, hc⟩
        · exact Or.inl h'
        · exact Or.inr ⟨c, hc1, List.mem_cons_of_mem _ hc2, hc⟩

theorem scan_some_of_some {date_tol_days : ℤ} {sim_threshold : ℚ} {t : InternalTxn}
    {used : List Nat} :
    ∀ (cands : List (Nat × BankTxn)) (bs : ℚ) (c : Best) (out : ℚ × Option Best),
      scanCandidates date_tol_days sim_threshold t used cands bs (some c) = some out →
      ∃ c', out.2 = some c' := by
  intro cands
  induction cands with
  | nil =>
    intro bs c out h
    simp only [scanCandidates, Option.some_inj] at h
    exact ⟨c, by rw [← h]⟩
  | cons jb rest ih =>
    intro bs c out h
    obtain ⟨j, b⟩ := jb
    simp only [scanCandidates] at h
    by_cases h1 : j ∈ used
    · rw [if_pos h1] at h; exact ih _ _ _ h
    · rw [if_neg h1] at h
      by_cases h2 : |t.date - b.date| ≤ date_tol_days
      · rw [if_pos h2] at h
        by_cases h3 : t.amount + 1 = 0
        · rw [if_pos h3] at h; cases h
        · rw [if_neg h3] at h
          by_cases h4 : bs < similarity t.vendorClean b.vendorClean
              - |t.amount - b.amount| / (t.amount + 1) * (1/4) ∧
              sim_threshold ≤ similarity t.vendorClean b.vendorClean
          · rw [if_pos h4] at h; exact ih _ _ _ h
          · rw [if_neg h4] at h; exact ih _ _ _ h
      · rw [if_neg h2] at h; exact ih _ _ _ h

theorem scan_complete {date_tol_days : ℤ} {sim_threshold : ℚ} {t : InternalTxn}
    {used : List Nat} :
    ∀ (cands : List (Nat × BankTxn)) (bs : ℚ) (bm : Option Best)
      (out : ℚ × Option Best),
      scanCandidates date_tol_days sim_threshold t used cands bs bm = some out →
      (∃ j b, (j, b) ∈ cands ∧ j ∉ used ∧ |t.date - b.date| ≤ date_tol_days ∧
        sim_threshold ≤ similarity t.vendorClean b.vendorClean ∧
        bs < similarity t.vendorClean b.vendorClean
          - |t.amount - b.amount| / (t.amount + 1) * (1/4)) →
      ∃ c, out.2 = some c := by
  intro cands
  induction cands with
  | nil =>
    intro bs bm out _ hex
    obtain ⟨j, b, hmem, _⟩ := hex
    cases hmem
  | cons jb rest ih =>
    intro bs bm out h hex
    obtain ⟨j0, b0⟩ := jb
    obtain ⟨j, b, hmem, hju, hdate, hsim, hscore⟩ := hex
    simp only [scanCandidates] at h
    rcases List.mem_cons.mp hmem with heq | hmem'
    · obtain ⟨rfl, rfl⟩ := Prod.mk.injEq .. ▸ heq
      rw [if_neg hju, if_pos hdate] at h
      by_cases h3 : t.amount + 1 = 0
      · rw [if_pos h3] at h; cases h
      · rw [if_neg h3] at h
        rw [if_pos ⟨hscore, hsim⟩] at h
        exact scan_some_of_some _ _ _ _ h
    · by_cases h1 : j0 ∈ used
      · rw [if_pos h1] at h
        exact ih _ _ _ h ⟨j, b, hmem', hju, hdate, hsim, hscore⟩
      · rw [if_neg h1] at h
        by_cases h2 : |t.date - b0.date| ≤ date_tol_days
        · rw [if_pos h2] at h
          by_cases h3 : t.amount + 1 = 0
          · rw [if_pos h3] at h; cases h
          · rw [if_neg h3] at h
            by_cases h4 : bs < similarity t.vendorClean b0.vendorClean
                - |t.amount - b0.amount| / (t.amount + 1) * (1/4) ∧
                sim_threshold ≤ similarity t.vendorClean b0.vendorClean
            · rw [if_pos h4] at h
              exact scan_some_of_some _ _ _ _ h
            · rw [if_neg h4] at h
              exact ih _ _ _ h ⟨j, b, hmem', hju, hdate, hsim, hscore⟩
        · rw [if_neg h2] at h
          exact ih _ _ _ h ⟨j, b, hmem', hju, hdate, hsim, hscore⟩

theorem mem_candidateList {bank : List BankTxn} {k : ℤ} {j : Nat} {b : BankTxn}
    (h : (j, b) ∈ candidateList bank k) : (j, b) ∈ bank.enum := by
  unfold candidateList bank_by_amount at h
  rcases List.mem_append.mp h with h1 | h1
  · rcases List.mem_append.mp h1 with h2 | h2
    · exact (List.mem_filter.mp h2).1
    · exact (List.mem_filter.mp h2).1
  · exact (List.mem_filter.mp h1).1

theorem step_cases {date_tol_days : ℤ} {sim_threshold : ℚ} {bank : List BankTxn}
    {st : RecState} {t : InternalTxn} {st' : RecState}
    (h : reconcileStep date_tol_days sim_threshold bank st t = some st') :
    (st' = { st with unmatchedInternal := st.unmatchedInternal ++ [t] } ∧
      ¬ eligibleCand date_tol_days sim_threshold t st.used
          (candidateList bank (pyRound (t.amount / 10)))) ∨
    (∃ c : Best,
      st' = { used := st.used ++ [c.j]
              matchList := st.matchList ++ [mkMatchRecord t c]
              unmatchedInternal := st.unmatchedInternal } ∧
      (c.j, c.b) ∈ candidateList bank (pyRound (t.amount / 10)) ∧
      c.j ∉ st.used ∧ |t.date - c.b.date| ≤ date_tol_days ∧
      c.sim = similarity t.vendorClean c.b.vendorClean ∧
      c.amtDiff = |t.amount - c.b.amount| ∧
      sim_threshold ≤ c.sim ∧ 0 < scoreOf t c ∧
      eligibleCand date_tol_days sim_threshold t st.used
        (candidateList bank (pyRound (t.amount / 10)))) := by
  unfold reconcileStep at h
  cases hscan : scanCandidates date_tol_days sim_threshold t st.used
      (candidateList bank (pyRound (t.amount / 10))) 0 none with
  | none => rw [hscan] at h; cases h
  | some out =>
    obtain ⟨bs, bm⟩ := out
    rw [hscan] at h
    cases bm with
    | none =>
      left
      refine ⟨by simpa using h.symm, ?_⟩
      rintro ⟨j, b, hmem, hju, hdate, hsim, hscore⟩
      obtain ⟨c, hc⟩ := scan_complete _ _ _ _ hscan ⟨j, b, hmem, hju, hdate, hsim, hscore⟩
      cases hc
    | some c =>
      right
      rcases scan_sound _ _ _ _ hscan with h' | ⟨c', hc1, hc2, hc3, hc4, hc5, hc6, hc7, hc8, hc9⟩
      · cases (Prod.mk.injEq .. ▸ h').2
      · have hcc : c' = c := by
          have h0 : some c = some c' := hc1
          exact (Option.some_inj.mp h0).symm
        subst hcc
        have hsc : 0 < scoreOf t c' := by
          rw [← hc8]; exact hc9
        refine ⟨c', by simpa using h.symm, hc2, hc3, hc4, hc5, hc6, hc7, hsc, ?_⟩
        refine ⟨c'.j, c'.b, hc2, hc3, hc4, ?_, ?_⟩
        · rw [← hc5]; exact hc7
        · have := hsc
          unfold scoreOf at this
          rw [hc5, hc6] at this
          exact this

theorem loop_spec {date_tol_days : ℤ} {sim_threshold : ℚ} {bank : List BankTxn} :
    ∀ (ts : List InternalTxn) (st st' : RecState),
      reconcileLoop date_tol_days sim_threshold bank ts st = some st' →
      ∃ js ms us,
        st'.used = st.used ++ js ∧
        st'.matchList = st.matchList ++ ms ∧
        st'.unmatchedInternal = st.unmatchedInternal ++ us ∧
        js.length = ms.length ∧
        ms.length + us.length = ts.length ∧
        js.Nodup ∧ (∀ j ∈ js, j ∉ st.used) ∧
        (∀ j ∈ js, ∃ b, (j, b) ∈ bank.enum) ∧
        List.Forall₂ (fun (j : Nat) (m : MatchRecord) =>
          ∃ b, (j, b) ∈ bank.enum ∧ m.bankRef = b.ref) js ms ∧
        List.Sublist (ms.map MatchRecord.tid) (ts.map InternalTxn.tid) ∧
        (∀ m ∈ ms, matchProps date_tol_days sim_threshold m) := by
  intro ts
  induction ts with
  | nil =>
    intro st st' h
    simp only [reconcileLoop, Option.some_inj] at h
    subst h
    exact ⟨[], [], [], by simp, by simp, by simp, rfl, rfl, List.nodup_nil,
      by simp, by simp, List.Forall₂.nil, by simp, by simp⟩
  | cons t rest ih =>
    intro st st' h
    simp only [reconcileLoop] at h
    cases hstep : reconcileStep date_tol_days sim_threshold bank st t with
    | none => rw [hstep] at h; cases h
    | some st₁ =>
      rw [hstep] at h
      obtain ⟨js, ms, us, e1, e2, e3, e4, e5, e6, e7, e8, e9, e10, e11⟩ := ih st₁ st' h
      rcases step_cases hstep with ⟨hst₁, _⟩ | ⟨c, hst₁, hc2, hc3, hc4, hc5, hc6, hc7, hc8, _⟩
      · subst hst₁
        refine ⟨js, ms, t :: us, ?_, ?_, ?_, e4, ?_, e6, e7, e8, e9, ?_, e11⟩
        · simpa using e1
        · simpa using e2
        · rw [e3]
          simp
        · simp only [List.length_cons, List.length_cons] at e5 ⊢
          omega
        · simp only [List.map_cons]
          exact e10.trans (List.sublist_cons_self _ _)
      · subst hst₁
        have hjs_st : ∀ j ∈ js, j ∉ st.used ++ [c.j] := e7
        refine ⟨c.j :: js, mkMatchRecord t c :: ms, us, ?_, ?_, e3, ?_, ?_, ?_, ?_, ?_, ?_, ?_, ?_⟩
        · rw [e1]; simp
        · rw [e2]; simp
        · simp [e4]
        · simp only [List.length_cons] at e5 ⊢
          omega
        · refine List.nodup_cons.mpr ⟨?_, e6⟩
          intro hmem
          exact hjs_st c.j hmem (List.mem_append.mpr (Or.inr (List.mem_singleton.mpr rfl)))
        · intro j hj
          rcases List.mem_cons.mp hj with rfl | hj'
          · exact hc3
          · intro hju
            exact hjs_st j hj' (List.mem_append.mpr (Or.inl hju))
        · intro j hj
          rcases List.mem_cons.mp hj with rfl | hj'
          · exact ⟨c.b, mem_candidateList hc2⟩
          · exact e8 j hj'
        · exact List.Forall₂.cons ⟨c.b, mem_candidateList hc2, rfl⟩ e9
        · simp only [List.map_cons]
          exact List.Sublist.cons₂ _ e10
        · intro m hm
          rcases List.mem_cons.mp hm with rfl | hm'
          · refine ⟨hc7, hc4, ?_, ?_, ?_⟩
            · exact hc6
            · rw [show (mkMatchRecord t c).amountDiff = c.amtDiff from rfl, hc6]
              exact abs_nonneg _
            · have := hc8
              unfold scoreOf at this
              exact this
          · exact e11 m hm'

/-! ### Uniqueness and counting helpers -/

theorem forall₂_exists_right {R : Nat → MatchRecord → Prop} :
    ∀ {js : List Nat} {ms : List MatchRecord}, List.Forall₂ R js ms →
      ∀ m ∈ ms, ∃ j ∈ js, R j m := by
  intro js ms h
  induction h with
  | nil => intro m hm; cases hm
  | @cons j₀ m₀ js' ms' hR hF ih =>
    intro m hm
    rcases List.mem_cons.mp hm with rfl | hm'
    · exact ⟨j₀, List.mem_cons_self _ _, hR⟩
    · obtain ⟨j, hj, hRj⟩ := ih m hm'
      exact ⟨j, List.mem_cons_of_mem _ hj, hRj⟩

theorem refs_nodup_of_forall₂ {bank : List BankTxn}
    (hrefs : (bank.map BankTxn.ref).Nodup) :
    ∀ {js : List Nat} {ms : List MatchRecord},
      List.Forall₂ (fun (j : Nat) (m : MatchRecord) =>
        ∃ b, (j, b) ∈ bank.enum ∧ m.bankRef = b.ref) js ms →
      js.Nodup → (ms.map MatchRecord.bankRef).Nodup := by
  intro js ms h
  induction h with
  | nil => intro _; simp
  | @cons j₀ m₀ js' ms' hR hF ih =>
    intro hnd
    obtain ⟨hnotin, hnd'⟩ := List.nodup_cons.mp hnd
    simp only [List.map_cons]
    refine List.nodup_cons.mpr ⟨?_, ih hnd'⟩
    intro hmem
    obtain ⟨m', hm', heq⟩ := List.mem_map.mp hmem
    obtain ⟨j', hj', b', hb', hr'⟩ := forall₂_exists_right hF m' hm'
    obtain ⟨b, hb, hr⟩ := hR
    have hget : bank[j₀]? = some b := List.mk_mem_enum_iff_getElem?.mp hb
    have hget' : bank[j']? = some b' := List.mk_mem_enum_iff_getElem?.mp hb'
    have hrr : b.ref = b'.ref := by rw [← hr, ← hr', heq]
    have hmget : (bank.map BankTxn.ref)[j₀]? = some b.ref := by
      rw [List.getElem?_map, hget]; rfl
    have hmget' : (bank.map BankTxn.ref)[j']? = some b'.ref := by
      rw [List.getElem?_map, hget']; rfl
    have hlt : j₀ < (bank.map BankTxn.ref).length := by
      rw [List.length_map]
      exact (List.getElem?_eq_some.mp hget).1
    have hj₀ : j₀ = j' := by
      apply List.getElem?_inj hlt hrefs
      rw [hmget, hmget', hrr]
    exact hnotin (hj₀ ▸ hj')

theorem filter_not_mem_cons {us : List Nat} {j : Nat} :
    ∀ (ps : List (Nat × BankTxn)), (ps.map Prod.fst).Nodup → j ∉ us →
      (∃ b, (j, b) ∈ ps) →
      (ps.filter (fun jb => decide (jb.1 ∉ j :: us))).length + 1
        = (ps.filter (fun jb => decide (jb.1 ∉ us))).length := by
  intro ps
  induction ps with
  | nil =>
    intro _ _ hex
    obtain ⟨b, hb⟩ := hex
    cases hb
  | cons kb ps' ih =>
    intro hnd hjus hex
    obtain ⟨k, b₀⟩ := kb
    simp only [List.map_cons] at hnd
    obtain ⟨hk, hnd'⟩ := List.nodup_cons.mp hnd
    obtain ⟨b, hb⟩ := hex
    simp only [List.filter_cons]
    rcases List.mem_cons.mp hb with heq | hb'
    · have hjk : j = k := by
        have := congrArg Prod.fst heq
        simpa using this
      subst hjk
      have h1 : (decide ((j, b₀).1 ∉ j :: us)) = false := by simp
      have h2 : (decide ((j, b₀).1 ∉ us)) = true := by simpa using hjus
      rw [h1, h2]
      simp only [Bool.false_eq_true, if_false, if_true, List.length_cons]
      have hagree : ps'.filter (fun jb => decide (jb.1 ∉ j :: us))
          = ps'.filter (fun jb => decide (jb.1 ∉ us)) := by
        apply List.filter_congr
        intro x hx
        have hxk : x.1 ≠ j := by
          intro he
          exact hk (he ▸ List.mem_map.mpr ⟨x, hx, rfl⟩)
        simp [List.mem_cons, hxk]
      rw [hagree]
    · have hjk : j ≠ k := by
        intro he
        exact hk (he ▸ List.mem_map.mpr ⟨(j, b), hb', rfl⟩)
      have hrec := ih hnd' hjus ⟨b, hb'⟩
      by_cases hkus : k ∈ us
      · have h1 : (decide ((k, b₀).1 ∉ j :: us)) = false := by
          simp [List.mem_cons, hkus]
        have h2 : (decide ((k, b₀).1 ∉ us)) = false := by simpa using hkus
        rw [h1, h2]
        simpa using hrec
      · have h1 : (decide ((k, b₀).1 ∉ j :: us)) = true := by
          simp [List.mem_cons, hkus]
          exact fun he => absurd he.symm hjk
        have h2 : (decide ((k, b₀).1 ∉ us)) = true := by simpa using hkus
        rw [h1, h2]
        simp only [if_true, List.length_cons]
        omega

theorem filter_not_mem_length :
    ∀ (used : List Nat) (ps : List (Nat × BankTxn)), (ps.map Prod.fst).Nodup →
      used.Nodup → (∀ j ∈ used, ∃ b, (j, b) ∈ ps) →
      (ps.filter (fun jb => decide (jb.1 ∉ used))).length + used.length = ps.length := by
  intro used
  induction used with
  | nil =>
    intro ps _ _ _
    simp
  | cons j us ih =>
    intro ps hnd hund hex
    obtain ⟨hju, hund'⟩ := List.nodup_cons.mp hund
    have h1 := filter_not_mem_cons ps hnd hju (hex j (List.mem_cons_self _ _))
    have h2 := ih ps hnd hund' (fun j' hj' => hex j' (List.mem_cons_of_mem _ hj'))
    simp only [List.length_cons]
    omega

theorem enum_fst_nodup (bank : List BankTxn) : (bank.enum.map Prod.fst).Nodup := by
  rw [List.enum_map_fst]
  exact List.nodup_range _

theorem reconcile_eq_some {internal : List InternalTxn} {bank : List BankTxn}
    {date_tol_days : ℤ} {amount_tol sim_threshold : ℚ}
    {ms : List MatchRecord} {ui : List InternalTxn} {ub : List BankTxn}
    (h : reconcile internal bank date_tol_days amount_tol sim_threshold
      = some (ms, ui, ub)) :
    ∃ st', reconcileLoop date_tol_days sim_threshold bank internal ⟨[], [], []⟩
        = some st' ∧
      ms = st'.matchList ∧ ui = st'.unmatchedInternal ∧
      ub = (bank.enum.filter (fun jb => decide (jb.1 ∉ st'.used))).map Prod.snd := by
  unfold reconcile at h
  cases hloop : reconcileLoop date_tol_days sim_threshold bank internal ⟨[], [], []⟩ with
  | none => rw [hloop] at h; cases h
  | some st' =>
    rw [hloop] at h
    simp only [Option.some_inj, Prod.mk.injEq] at h
    exact ⟨st', rfl, h.1.symm, h.2.1.symm, h.2.2.symm⟩

theorem loop_isSome {date_tol_days : ℤ} {sim_threshold : ℚ} {bank : List BankTxn} :
    ∀ (ts : List InternalTxn) (st : RecState), (∀ t ∈ ts, t.amount + 1 ≠ 0) →
      (reconcileLoop date_tol_days sim_threshold bank ts st).isSome = true := by
  intro ts
  induction ts with
  | nil => intro st _; rfl
  | cons t rest ih =>
    intro st h
    simp only [reconcileLoop]
    have hsc := @scan_isSome date_tol_days sim_threshold t st.used
      (h t (List.mem_cons_self _ _))
      (candidateList bank (pyRound (t.amount / 10))) 0 (none : Option Best)
    cases hscan : scanCandidates date_tol_days sim_threshold t st.used
        (candidateList bank (pyRound (t.amount / 10))) 0 none with
    | none => rw [hscan] at hsc; cases hsc
    | some out =>
      obtain ⟨bs, bm⟩ := out
      unfold reconcileStep
      rw [hscan]
      cases bm with
      | none => exact ih _ (fun t' ht' => h t' (List.mem_cons_of_mem _ ht'))
      | some c => exact ih _ (fun t' ht' => h t' (List.mem_cons_of_mem _ ht'))

set_option maxRecDepth 400000 in
theorem reconcile_acme_run :
    reconcile [tAcme] [bAcme] 2 50 (3/4) = some ([mrAcme], [], []) := by
  with_unfolding_all decide

set_option maxRecDepth 400000 in
theorem reconcile_zero_run :
    reconcile [tZero] [bZero] 2 50 (3/4) = some ([mrZero], [], []) := by
  with_unfolding_all decide

/-! ### Claim theorems -/

set_option maxRecDepth 400000 in
/-- C1 (counterexample): the scoring denominator in the source is
`int_amt + 1`, not `|int_amt| + 1`.  An internal amount of `-1` with a
date-eligible candidate makes the denominator zero, and the run raises a
`ZeroDivisionError` (modelled as `none`), so `reconcile` is not total over
all signed amounts. -/
theorem c1_counterexample :
    tNeg.amount = -1 ∧ reconcile [tNeg] [bNeg] 2 50 (3/4) = none := by
  with_unfolding_all decide

/-- C1 (amended): the score computation divides by `t.Amount + 1`, so a run
raises no division error as long as every internal amount differs from `-1`;
in particular amount `0` uses the denominator `0 + 1 = 1`. -/
theorem c1_amended_total :
    ∀ (internal : List InternalTxn) (bank : List BankTxn) (date_tol_days : ℤ)
      (amount_tol sim_threshold : ℚ),
      (∀ t ∈ internal, t.amount + 1 ≠ 0) →
      (reconcile internal bank date_tol_days amount_tol sim_threshold).isSome = true := by
  intro internal bank date_tol_days amount_tol sim_threshold h
  unfold reconcile
  cases hloop : reconcileLoop date_tol_days sim_threshold bank internal ⟨[], [], []⟩ with
  | none =>
    have := @loop_isSome date_tol_days sim_threshold bank internal ⟨[], [], []⟩ h
    rw [hloop] at this
    cases this
  | some st' => rfl

/-- C1 (witness): the zero-amount scenario runs without a division error. -/
theorem c1_witness : (reconcile [tZero] [bZero] 2 50 (3/4)).isSome = true :=
  c1_amended_total [tZero] [bZero] 2 50 (3/4)
    (by
      intro t ht
      rw [List.mem_singleton.mp ht]
      norm_num [tZero])

set_option maxRecDepth 400000 in
/-- C2 (counterexample): a not-yet-used candidate in the scanned buckets,
within date tolerance and with vendor similarity `1 ≥ 0.75`, exists, yet no
`MatchRecord` is emitted and the internal transaction is recorded unmatched:
with internal amount `0` and bank amount `14` the score is
`1 - (14/1)·0.25 = -2.5`, which never exceeds the starting best score `0`. -/
theorem c2_counterexample :
    ((0 : Nat), bC2) ∈ candidateList [bC2] (pyRound (tC2.amount / 10)) ∧
    |tC2.date - bC2.date| ≤ 2 ∧
    (3 : ℚ)/4 ≤ similarity tC2.vendorClean bC2.vendorClean ∧
    reconcile [tC2] [bC2] 2 50 (3/4) = some ([], [tC2], [bC2]) := by
  with_unfolding_all decide

/-- C2 (amended): provided the scoring denominator is nonzero, one loop
iteration emits a `MatchRecord` if and only if some not-yet-used candidate in
buckets `[k-1, k, k+1]` is within `dateTolDays`, has similarity at least
`simThreshold`, and has a strictly positive score (the running best starts at
`0`); otherwise the internal transaction is recorded unmatched. -/
theorem c2_amended_step :
    ∀ (date_tol_days : ℤ) (sim_threshold : ℚ) (bank : List BankTxn)
      (st : RecState) (t : InternalTxn),
      t.amount + 1 ≠ 0 →
      ∃ st', reconcileStep date_tol_days sim_threshold bank st t = some st' ∧
        (eligibleCand date_tol_days sim_threshold t st.used
            (candidateList bank (pyRound (t.amount / 10))) ↔
          ∃ r, st'.matchList = st.matchList ++ [r]) ∧
        (¬ eligibleCand date_tol_days sim_threshold t st.used
            (candidateList bank (pyRound (t.amount / 10))) ↔
          st'.unmatchedInternal = st.unmatchedInternal ++ [t]) := by
  intro date_tol_days sim_threshold bank st t h
  have hsc := @scan_isSome date_tol_days sim_threshold t st.used h
    (candidateList bank (pyRound (t.amount / 10))) 0 (none : Option Best)
  cases hscan : scanCandidates date_tol_days sim_threshold t st.used
      (candidateList bank (pyRound (t.amount / 10))) 0 none with
  | none => rw [hscan] at hsc; cases hsc
  | some out =>
    obtain ⟨bs, bm⟩ := out
    cases bm with
    | none =>
      have hne : ¬ eligibleCand date_tol_days sim_threshold t st.used
          (candidateList bank (pyRound (t.amount / 10))) := by
        intro hel
        unfold eligibleCand at hel
        obtain ⟨c, hc⟩ := scan_complete _ _ _ _ hscan hel
        cases hc
      refine ⟨{ st with unmatchedInternal := st.unmatchedInternal ++ [t] }, ?_, ?_, ?_⟩
      · unfold reconcileStep
        rw [hscan]
      · refine iff_of_false hne ?_
        rintro ⟨r, hr⟩
        simp at hr
      · exact iff_of_true hne rfl
    | some c =>
      have heli : eligibleCand date_tol_days sim_threshold t st.used
          (candidateList bank (pyRound (t.amount / 10))) := by
        rcases scan_sound _ _ _ _ hscan with h' | ⟨c', hc1, hc2, hc3, hc4, hc5, hc6, hc7, hc8, hc9⟩
        · cases (Prod.mk.injEq .. ▸ h').2
        · refine ⟨c'.j, c'.b, hc2, hc3, hc4, ?_, ?_⟩
          · rw [← hc5]; exact hc7
          · have h0 : (0 : ℚ) < scoreOf t c' := hc8 ▸ hc9
            unfold scoreOf at h0
            rw [hc5, hc6] at h0
            exact h0
      refine ⟨{ used := st.used ++ [c.j]
                matchList := st.matchList ++ [mkMatchRecord t c]
                unmatchedInternal := st.unmatchedInternal }, ?_, ?_, ?_⟩
      · unfold reconcileStep
        rw [hscan]
      · exact iff_of_true heli ⟨mkMatchRecord t c, rfl⟩
      · refine iff_of_false (fun hne => hne heli) ?_
        intro hu
        simp at hu

/-- C2 (witness): the amended step characterisation applied to the concrete
matching scenario. -/
theorem c2_witness :
    ∃ st', reconcileStep 2 (3/4) [bAcme] ⟨[], [], []⟩ tAcme = some st' ∧
      (eligibleCand 2 (3/4) tAcme [] (candidateList [bAcme] (pyRound (tAcme.amount / 10))) ↔
        ∃ r, st'.matchList = [] ++ [r]) ∧
      (¬ eligibleCand 2 (3/4) tAcme [] (candidateList [bAcme] (pyRound (tAcme.amount / 10))) ↔
        st'.unmatchedInternal = [] ++ [tAcme]) :=
  c2_amended_step 2 (3/4) [bAcme] ⟨[], [], []⟩ tAcme (by norm_num [tAcme])

/-- C3: `amount_tol` is accepted but never read: two runs differing only in
`amount_tol` return identical results (definitionally). -/
theorem c3_amount_tol_inert :
    ∀ (internal : List InternalTxn) (bank : List BankTxn) (date_tol_days : ℤ)
      (a1 a2 sim_threshold : ℚ),
      reconcile internal bank date_tol_days a1 sim_threshold
        = reconcile internal bank date_tol_days a2 sim_threshold :=
  fun _ _ _ _ _ _ => rfl

/-- C4: with unique bank references and unique internal transaction ids (as
the data model requires), each bank transaction and each internal transaction
appears in at most one emitted `MatchRecord`. -/
theorem c4_at_most_one :
    ∀ (internal : List InternalTxn) (bank : List BankTxn) (date_tol_days : ℤ)
      (amount_tol sim_threshold : ℚ) (ms : List MatchRecord)
      (ui : List InternalTxn) (ub : List BankTxn),
      (bank.map BankTxn.ref).Nodup → (internal.map InternalTxn.tid).Nodup →
      reconcile internal bank date_tol_days amount_tol sim_threshold
        = some (ms, ui, ub) →
      (ms.map MatchRecord.bankRef).Nodup ∧ (ms.map MatchRecord.tid).Nodup := by
  intro internal bank date_tol_days amount_tol sim_threshold ms ui ub hbr htid h
  obtain ⟨st', hloop, hms, _, _⟩ := reconcile_eq_some h
  obtain ⟨js, ms', us, e1, e2, e3, e4, e5, e6, e7, e8, e9, e10, e11⟩ :=
    loop_spec internal _ _ hloop
  have hms' : ms = ms' := by rw [hms, e2]; rfl
  subst hms'
  constructor
  · exact refs_nodup_of_forall₂ hbr e9 e6
  · exact List.Nodup.sublist e10 htid

/-- C4 (witness): the concrete matching scenario satisfies the hypotheses
and yields one match with unique references. -/
theorem c4_witness :
    (([mrAcme].map MatchRecord.bankRef).Nodup ∧ ([mrAcme].map MatchRecord.tid).Nodup) :=
  c4_at_most_one [tAcme] [bAcme] 2 50 (3/4) [mrAcme] [] []
    (by decide) (by decide) reconcile_acme_run

/-- C5: the outputs partition both inputs by cardinality:
`|matches| + |unmatchedInternal| = |internal|` and
`|matches| + |unmatchedBank| = |bank|`. -/
theorem c5_partition :
    ∀ (internal : List InternalTxn) (bank : List BankTxn) (date_tol_days : ℤ)
      (amount_tol sim_threshold : ℚ) (ms : List MatchRecord)
      (ui : List InternalTxn) (ub : List BankTxn),
      reconcile internal bank date_tol_days amount_tol sim_threshold
        = some (ms, ui, ub) →
      ms.length + ui.length = internal.length ∧
      ms.length + ub.length = bank.length := by
  intro internal bank date_tol_days amount_tol sim_threshold ms ui ub h
  obtain ⟨st', hloop, hms, hui, hub⟩ := reconcile_eq_some h
  obtain ⟨js, ms', us, e1, e2, e3, e4, e5, e6, e7, e8, e9, e10, e11⟩ :=
    loop_spec internal _ _ hloop
  have hms' : ms = ms' := by rw [hms, e2]; rfl
  have hui' : ui = us := by rw [hui, e3]; rfl
  have hused : st'.used = js := by rw [e1]; rfl
  constructor
  · rw [hms', hui']
    exact e5
  · have hnd : st'.used.Nodup := by rw [hused]; exact e6
    have hexb : ∀ j ∈ st'.used, ∃ b, (j, b) ∈ bank.enum := by rw [hused]; exact e8
    have hcount := filter_not_mem_length st'.used bank.enum (enum_fst_nodup bank) hnd hexb
    have hlen : ub.length
        = (bank.enum.filter (fun jb => decide (jb.1 ∉ st'.used))).length := by
      rw [hub, List.length_map]
    have henum : bank.enum.length = bank.length := List.enum_length
    have hul : st'.used.length = ms.length := by rw [hused, hms']; exact e4
    omega

/-- C5 (witness): the concrete matching scenario: `1 + 0 = 1` on both
sides. -/
theorem c5_witness :
    ([mrAcme].length + ([] : List InternalTxn).length = [tAcme].length ∧
     [mrAcme].length + ([] : List BankTxn).length = [bAcme].length) :=
  c5_partition [tAcme] [bAcme] 2 50 (3/4) [mrAcme] [] [] reconcile_acme_run

/-- C6: every emitted `MatchRecord` has `VendorSimilarity ≥ simThreshold`, an
absolute date difference of at most `dateTolDays`, and
`AmountDiff = |InternalAmount - BankAmount| ≥ 0`. -/
theorem c6_match_invariants :
    ∀ (internal : List InternalTxn) (bank : List BankTxn) (date_tol_days : ℤ)
      (amount_tol sim_threshold : ℚ) (ms : List MatchRecord)
      (ui : List InternalTxn) (ub : List BankTxn),
      reconcile internal bank date_tol_days amount_tol sim_threshold
        = some (ms, ui, ub) →
      ∀ m ∈ ms, sim_threshold ≤ m.vendorSimilarity ∧
        |m.internalDate - m.bankDate| ≤ date_tol_days ∧
        m.amountDiff = |m.internalAmount - m.bankAmount| ∧ 0 ≤ m.amountDiff := by
  intro internal bank date_tol_days amount_tol sim_threshold ms ui ub h m hm
  obtain ⟨st', hloop, hms, _, _⟩ := reconcile_eq_some h
  obtain ⟨js, ms', us, e1, e2, e3, e4, e5, e6, e7, e8, e9, e10, e11⟩ :=
    loop_spec internal _ _ hloop
  have hms' : ms = ms' := by rw [hms, e2]; rfl
  obtain ⟨p1, p2, p3, p4, _⟩ := e11 m (hms' ▸ hm)
  exact ⟨p1, p2, p3, p4⟩

/-- C6 (witness): the concrete match: similarity `1 ≥ 3/4`, date difference
`1 ≤ 2`, amount difference `0 = |1000 - 1000|`. -/
theorem c6_witness :
    (3 : ℚ)/4 ≤ mrAcme.vendorSimilarity ∧
    |mrAcme.internalDate - mrAcme.bankDate| ≤ 2 ∧
    mrAcme.amountDiff = |mrAcme.internalAmount - mrAcme.bankAmount| ∧
    0 ≤ mrAcme.amountDiff :=
  c6_match_invariants [tAcme] [bAcme] 2 50 (3/4) [mrAcme] [] [] reconcile_acme_run
    mrAcme (List.mem_singleton.mpr rfl)

/-- C8: every emitted match has a strictly positive selection score
`sim - (amtDiff / (Amount + 1)) * 0.25 > 0`: the running best starts at `0`
and is only replaced by strictly greater scores, so a candidate with score
`≤ 0` is never selected even when its similarity meets the threshold. -/
theorem c8_positive_score :
    ∀ (internal : List InternalTxn) (bank : List BankTxn) (date_tol_days : ℤ)
      (amount_tol sim_threshold : ℚ) (ms : List MatchRecord)
      (ui : List InternalTxn) (ub : List BankTxn),
      reconcile internal bank date_tol_days amount_tol sim_threshold
        = some (ms, ui, ub) →
      ∀ m ∈ ms,
        0 < m.vendorSimilarity - m.amountDiff / (m.internalAmount + 1) * (1/4) := by
  intro internal bank date_tol_days amount_tol sim_threshold ms ui ub h m hm
  obtain ⟨st', hloop, hms, _, _⟩ := reconcile_eq_some h
  obtain ⟨js, ms', us, e1, e2, e3, e4, e5, e6, e7, e8, e9, e10, e11⟩ :=
    loop_spec internal _ _ hloop
  have hms' : ms = ms' := by rw [hms, e2]; rfl
  exact (e11 m (hms' ▸ hm)).2.2.2.2

/-- C8 (witness): the concrete match has score `1 - 0 = 1 > 0`. -/
theorem c8_witness :
    0 < mrAcme.vendorSimilarity
        - mrAcme.amountDiff / (mrAcme.internalAmount + 1) * (1/4) :=
  c8_positive_score [tAcme] [bAcme] 2 50 (3/4) [mrAcme] [] [] reconcile_acme_run
    mrAcme (List.mem_singleton.mpr rfl)

/-- C7 (counterexample): `normalize_text` replaces stop tokens with a space
rather than removing them: on `"a.b"` the source yields `"a b"`, while the
removal described by the claim yields `"ab"`. -/
theorem c7_counterexample :
    normalize_text (some ("a.b".toList)) = "a b".toList ∧
    normalize_text_claimed (some ("a.b".toList)) = "ab".toList ∧
    normalize_text (some ("a.b".toList))
      ≠ normalize_text_claimed (some ("a.b".toList)) := by
  decide

/-- C7 (amended): `normalize_text` is total: a missing value maps to the
empty string, and every string maps to its lowercased, trimmed form with
every stop-token occurrence replaced by a single space (naive substrings, in
source order) and whitespace runs collapsed to single spaces; the result
carries no leading or trailing whitespace, no adjacent spaces, and no
whitespace other than plain spaces. -/
theorem c7_amended_normalize :
    normalize_text none = [] ∧
    (∀ o, normalize_text o = normalize_text_amended o) ∧
    (∀ s, collapsedWs (normalize_text (some s))) :=
  ⟨rfl, fun o => by cases o <;> rfl, normalize_collapsedWs⟩

/-- C9: two missing vendor names both normalize to the empty string, and the
similarity of two empty strings is `1.0`, which passes every threshold in
`[0, 1]`. -/
theorem c9_missing_vendor_similarity :
    similarity (normalize_text none) (normalize_text none) = 1 ∧
    ∀ thr : ℚ, 0 ≤ thr → thr ≤ 1 →
      thr ≤ similarity (normalize_text none) (normalize_text none) := by
  have h : similarity (normalize_text none) (normalize_text none) = 1 := rfl
  exact ⟨h, fun thr _ h1 => h ▸ h1⟩

/-- C9 (witness): the default threshold `0.75` is passed. -/
theorem c9_witness :
    (3 : ℚ)/4 ≤ similarity (normalize_text none) (normalize_text none) :=
  c9_missing_vendor_similarity.2 (3/4) (by norm_num) (by norm_num)

/-- C10: `normalize_text` is idempotent on every string. -/
theorem c10_normalize_idem :
    ∀ s : List Char,
      normalize_text (some (normalize_text (some s))) = normalize_text (some s) :=
  normalize_text_idem_aux
